import Mathlib

set_option maxRecDepth 8192

/-!
Verification of the WOD (workout of the day) extraction core of the
daily-dotcom-scrape-workflow repository, a shallow embedding of
`src/scraper/dotcom-scraper.ts`.

The embedding works on the parsed HTML node tree (the output of the lenient
HTML parser the source loads its pre-cleaned HTML into).  A document is a
list of root nodes; each node is either a text node or an element with a tag
name, an attribute list and an ordered child list.  The source strips
`script`/`style` elements and HTML comments from the raw string before
parsing, so the tree contains no comment nodes; text and element nodes are
the only node kinds the extractor ever sees.

All character-level operations of the source (lower-casing, trimming,
newline collapsing, the rest-day regular expression) are modelled explicitly
over `List Char` so that every definition evaluates by kernel reduction.
-/

/-- JS whitespace: the character class matched by the `\s` regular-expression
escape, which is also the set removed by `String.prototype.trim`
(ECMAScript WhiteSpace together with LineTerminator). -/
def isJsWs (c : Char) : Bool :=
  c = ' ' || c = '\t' || c = '\n' || c = '\r' || c = '\x0b' || c = '\x0c'
  || c = '\u00A0' || c = '\u1680'
  || ('\u2000' ≤ c && c ≤ '\u200A')
  || c = '\u2028' || c = '\u2029' || c = '\u202F' || c = '\u205F' || c = '\u3000'
  || c = '\uFEFF'

/-- ASCII lower-casing of a string, character by character (the fragment of
`String.prototype.toLowerCase` exercised by the scraper: tag names and the
heading text are ASCII). -/
def lowerStr (s : String) : String := String.mk (s.toList.map Char.toLower)

/-- Drop leading JS whitespace (the left half of `String.prototype.trim`). -/
def trimLeft (l : List Char) : List Char := l.dropWhile isJsWs

/-- Drop trailing JS whitespace (the right half of `String.prototype.trim`). -/
def trimRight : List Char → List Char
  | [] => []
  | c :: cs =>
    if trimRight cs = [] ∧ isJsWs c then [] else c :: trimRight cs

/-- `String.prototype.trim`. -/
def jsTrim (s : String) : String := String.mk (trimRight (trimLeft s.toList))

/-- Emit a run of `k` pending newlines after collapsing: runs of three or
more newlines are replaced by exactly two (`.replace(/\n{3,}/g, "\n\n")`),
shorter runs are kept as they are. -/
def emitNl (k : Nat) : List Char := List.replicate (min k 2) '\n'

/-- Scanner for `.replace(/\n{3,}/g, "\n\n")`: `k` counts the newlines of the
run currently being read. -/
def collapseGo : Nat → List Char → List Char
  | k, [] => emitNl k
  | k, c :: cs => if c = '\n' then collapseGo (k + 1) cs else emitNl k ++ c :: collapseGo 0 cs

/-- `.replace(/\n{3,}/g, "\n\n")` on a whole character list. -/
def collapseNl (l : List Char) : List Char := collapseGo 0 l

/-- The post-processing of `htmlSnippetToMarkdown` (dotcom-scraper.ts line 60):
`md.replace(/\n{3,}/g, "\n\n").trim()`. -/
def postProcess (s : String) : String := String.mk (trimRight (trimLeft (collapseNl s.toList)))

/-- A node of the parsed HTML tree: a text node, or an element with tag name,
attribute list and children in document order. -/
inductive HNode where
  | text (s : String)
  | elem (tag : String) (attrs : List (String × String)) (children : List HNode)

/-- Attribute lookup (`$el.attr(name)`). -/
def getAttr (attrs : List (String × String)) (name : String) : Option String :=
  (attrs.find? (fun p => p.1 = name)).map Prod.snd

mutual

/-- `convertCheerioToMarkdown` (dotcom-scraper.ts lines 7-52) on a single
node, mutually with its traversal of a node list.  A text node contributes
its literal text.  An element dispatches on its lower-cased tag name:
`p` appends two newlines after its converted children, `br` is one newline,
`strong`/`b` wrap children in double asterisks, `em`/`i` in single asterisks,
`a` renders a markdown link with the `href` attribute (empty string when
absent), and every other tag contributes its converted children only. -/

def convertNode : HNode → String
  | .text s => s
  | .elem tag attrs children =>
    if lowerStr tag = "p" then convertNodes children ++ "\n\n"
    else if lowerStr tag = "br" then "\n"
    else if lowerStr tag = "strong" ∨ lowerStr tag = "b" then "**" ++ convertNodes children ++ "**"
    else if lowerStr tag = "em" ∨ lowerStr tag = "i" then "*" ++ convertNodes children ++ "*"
    else if lowerStr tag = "a" then
      "[" ++ convertNodes children ++ "](" ++ (getAttr attrs "href").getD "" ++ ")"
    else convertNodes children

/-- `convertCheerioToMarkdown` over a node collection: children are processed
in document order and the results concatenated. -/
def convertNodes : List HNode → String
  | [] => ""
  | n :: ns => convertNode n ++ convertNodes ns

end

/-- `htmlSnippetToMarkdown` (dotcom-scraper.ts lines 55-62) on an already
parsed fragment: recursive conversion followed by newline collapsing and
trimming.  (The source round-trips the fragment through `.html()` and a
re-parse; on the tree model that round trip is the identity.) -/
def snippetToMarkdown (fragment : List HNode) : String :=
  postProcess (convertNodes fragment)

/-- Class-attribute token list: the attribute value split on whitespace with
empty pieces dropped, as CSS class matching does. -/
def splitWsGo : List Char → List Char → List String
  | cur, [] => if cur = [] then [] else [String.mk cur.reverse]
  | cur, c :: cs =>
    if isJsWs c then
      if cur = [] then splitWsGo [] cs else String.mk cur.reverse :: splitWsGo [] cs
    else splitWsGo (c :: cur) cs

/-- The class tokens of an attribute list (empty when there is no class
attribute). -/
def classTokens (attrs : List (String × String)) : List String :=
  splitWsGo [] (((getAttr attrs "class").getD "").toList)

/-- Does the element's class token list contain `tok` (a CSS `.tok`
selector)? -/
def hasClassTok (attrs : List (String × String)) (tok : String) : Bool :=
  (classTokens attrs).contains tok

/-- `l` starts with `pat` (CSS `[attr^="pat"]` matching on the raw attribute
value). -/
def startsWithL : List Char → List Char → Bool
  | _, [] => true
  | [], _ :: _ => false
  | c :: cs, d :: ds => c = d && startsWithL cs ds

/-- The stable class-name token the primary selector keys on. -/
def wodClassToken : String := "_workout-of-the-day-content"

/-- The primary selector `div[class^="_workout-of-the-day-content"]`
(dotcom-scraper.ts line 131): an element matches exactly when its tag is
`div` and its class attribute value starts with the token. -/
def isPrimaryDiv : HNode → Bool
  | .text _ => false
  | .elem tag attrs _ =>
    lowerStr tag = "div" &&
      (match getAttr attrs "class" with
       | some cls => startsWithL cls.toList wodClassToken.toList
       | none => false)

/-- Is the node an `article` element (the `.find("article")` selector)? -/
def isArticleElem : HNode → Bool
  | .text _ => false
  | .elem tag _ _ => lowerStr tag = "article"

/-- Is the node an element node at all? -/
def isElementNode : HNode → Bool
  | .text _ => false
  | .elem _ _ _ => true

/-- The children of a node (empty for a text node). -/
def childrenOf : HNode → List HNode
  | .text _ => []
  | .elem _ _ c => c

mutual

/-- Selector evaluation: all nodes of the tree satisfying `p`, in document
(pre-order) order, mutually with the traversal of a node list. -/

def collectNode (p : HNode → Bool) : HNode → List HNode
  | .text s => if p (.text s) then [.text s] else []
  | .elem t a c =>
    (if p (.elem t a c) then [.elem t a c] else []) ++ collectNodes p c

def collectNodes (p : HNode → Bool) : List HNode → List HNode
  | [] => []
  | n :: ns => collectNode p n ++ collectNodes p ns

end

mutual

/-- All nodes of a tree in document (pre-order) order. -/

def preorderNode : HNode → List HNode
  | .text s => [.text s]
  | .elem t a c => .elem t a c :: preorderNodes c

def preorderNodes : List HNode → List HNode
  | [] => []
  | n :: ns => preorderNode n ++ preorderNodes ns

end

/-- `$set.find(sel)` restricted to one set member: the matching descendants
of the node, excluding the node itself. -/
def descendantsMatching (p : HNode → Bool) (n : HNode) : List HNode :=
  collectNodes p (childrenOf n)

/-- The `article` descendants of every matched primary div, concatenated in
order (the collection `workoutOfTheDayContentDiv.find("article")`). -/
def articlesUnderDivs : List HNode → List HNode
  | [] => []
  | d :: ds => descendantsMatching isArticleElem d ++ articlesUnderDivs ds

/-- Does the node serialize to the empty string?  Only a text node with empty
text does; an element always serializes to at least its tags.  Used to model
the `if (articleHtml)` truthiness test on the article's inner HTML. -/
def serializesEmpty : HNode → Bool
  | .text s => s = ""
  | .elem _ _ _ => false

/-- The primary strategy's candidate markdown (dotcom-scraper.ts
lines 129-157, without the length threshold): select the divs whose class
attribute starts with the token; if any exist, collect their `article`
descendants; if any exist, take the first article's inner HTML (`none` when
it serializes to the empty string, matching the `if (articleHtml)` guard) and
convert it. -/
def primaryCandidate (doc : List HNode) : Option String :=
  match collectNodes isPrimaryDiv doc with
  | [] => none
  | d :: ds =>
    match articlesUnderDivs (d :: ds) with
    | [] => none
    | art :: _ =>
      if (childrenOf art).all serializesEmpty then none
      else some (snippetToMarkdown (childrenOf art))

mutual

/-- The document-wide text content of a node (`$(el).text()`), mutually with
the node-list version. -/

def textContentNode : HNode → String
  | .text s => s
  | .elem _ _ c => textContentNodes c

def textContentNodes : List HNode → String
  | [] => ""
  | n :: ns => textContentNode n ++ textContentNodes ns

end

/-- Is the node an `h1`, `h2` or `h3` element? -/
def isHeading123 : HNode → Bool
  | .text _ => false
  | .elem tag _ _ =>
    lowerStr tag = "h1" || lowerStr tag = "h2" || lowerStr tag = "h3"

/-- The fallback's heading filter (dotcom-scraper.ts lines 162-165): a
heading of level 1-3 whose text, trimmed and lower-cased, equals
"workout of the day". -/
def isWodHeading (n : HNode) : Bool :=
  isHeading123 n && lowerStr (jsTrim (textContentNode n)) = "workout of the day"

mutual

/-- Locate the document-order-first matching heading and return its following
sibling list (`.filter(...).first()` over `$("h1, h2, h3")`, positioned for
the `nextUntil` walk), mutually over nodes and node lists. -/

def headingTailNode : HNode → Option (List HNode)
  | .text _ => none
  | .elem _ _ c => headingTailNodes c

def headingTailNodes : List HNode → Option (List HNode)
  | [] => none
  | n :: ns =>
    if isWodHeading n then some ns
    else
      match headingTailNode n with
      | some tail => some tail
      | none => headingTailNodes ns

end

/-- The `nextUntil` stop selector of the fallback (dotcom-scraper.ts
line 169): `h1, h2, h3, hr, div#comments, section.comments, div.fyre,
div.comments-area, #comments, .comments-section, .post-comments`. -/
def isFallbackStop : HNode → Bool
  | .text _ => false
  | .elem tag attrs _ =>
    lowerStr tag = "h1" || lowerStr tag = "h2" || lowerStr tag = "h3" || lowerStr tag = "hr"
    || (lowerStr tag = "div" && getAttr attrs "id" = some "comments")
    || (lowerStr tag = "section" && hasClassTok attrs "comments")
    || (lowerStr tag = "div" && hasClassTok attrs "fyre")
    || (lowerStr tag = "div" && hasClassTok attrs "comments-area")
    || getAttr attrs "id" = some "comments"
    || hasClassTok attrs "comments-section"
    || hasClassTok attrs "post-comments"

/-- `heading.nextUntil(stopSelector)`: walk the following siblings, skipping
text-node siblings, collecting element siblings until the first one matching
the stop selector (which is not collected). -/
def nextUntilStop : List HNode → List HNode
  | [] => []
  | n :: ns =>
    if isElementNode n then
      if isFallbackStop n then [] else n :: nextUntilStop ns
    else nextUntilStop ns

/-- The fallback strategy's candidate markdown (dotcom-scraper.ts
lines 159-199, without the length threshold): find the first
"workout of the day" heading; collect its following siblings up to the stop
selector; if any were collected, aggregate and convert them.  (The source's
extra `PTagHtml && PTagHtml.trim() !== ""` guard cannot fail once an element
was collected, since an element's outer HTML starts with a non-whitespace
character.) -/
def fallbackCandidate (doc : List HNode) : Option String :=
  match headingTailNodes doc with
  | none => none
  | some sibs =>
    match nextUntilStop sibs with
    | [] => none
    | n :: ns => some (snippetToMarkdown (n :: ns))

/-- A strategy's acceptance threshold (dotcom-scraper.ts lines 143 and 184):
a candidate is kept only when its markdown is strictly longer than 20
characters. -/
def acceptCandidate : Option String → Option String
  | none => none
  | some md => if 20 < md.length then some md else none

/-- The primary strategy including its length threshold. -/
def primaryResult (doc : List HNode) : Option String :=
  acceptCandidate (primaryCandidate doc)

/-- The fallback strategy including its length threshold; the source only
runs it when the primary produced nothing. -/
def fallbackResult (doc : List HNode) : Option String :=
  acceptCandidate (fallbackCandidate doc)

/-- The extracted `wodTextContent` after both strategies: the primary's
result if it accepted, otherwise the fallback's. -/
def chooseWodText (doc : List HNode) : Option String :=
  match primaryResult doc with
  | some md => some md
  | none => fallbackResult doc

/-- One attempted match of `/rest\sday/i` at the start of the list: the
letters of "rest", one JS whitespace character, the letters of "day",
case-insensitively. -/
def matchRestDayAt : List Char → Bool
  | c0 :: c1 :: c2 :: c3 :: w :: c4 :: c5 :: c6 :: _ =>
    c0.toLower = 'r' && c1.toLower = 'e' && c2.toLower = 's' && c3.toLower = 't'
    && isJsWs w
    && c4.toLower = 'd' && c5.toLower = 'a' && c6.toLower = 'y'
  | _ => false

/-- `/rest\sday/i.test text`: does the pattern match at any position? -/
def hasRestDay : List Char → Bool
  | [] => false
  | c :: cs => matchRestDayAt (c :: cs) || hasRestDay cs

/-- The record returned by `extractWodDetails`. -/
structure WodDetails where
  wodText : Option String
  isRestDay : Bool
deriving DecidableEq

/-- `extractWodDetails` (dotcom-scraper.ts lines 99-216) on the parsed
document: run the two strategies in order and classify the result with the
rest-day test.  An accepted candidate has length over 20, hence is nonempty,
so the source's `wodTextContent || null` coercion never turns an accepted
string into `null`. -/
def extractWodDetails (doc : List HNode) : WodDetails :=
  match chooseWodText doc with
  | some md => { wodText := some md, isRestDay := hasRestDay md.toList }
  | none => { wodText := none, isRestDay := false }

/-- Three consecutive newline characters: the shape of substring that
post-processing eliminates. -/
def nl3 : List Char := ['\n', '\n', '\n']

/-- The head of the list, when there is one, is not JS whitespace. -/
def headNotWs (l : List Char) : Prop := ∀ c, l.head? = some c → isJsWs c = false

/-- The declarative reading of `/rest\sday/i`: somewhere in the text, the
four letters of "rest" (case-insensitively), then exactly one JS whitespace
character, then the three letters of "day" (case-insensitively). -/
def RestDayMatch (l : List Char) : Prop :=
  ∃ pre four w three post,
    l = pre ++ four ++ w :: three ++ post ∧
    four.map Char.toLower = ['r', 'e', 's', 't'] ∧
    isJsWs w = true ∧
    three.map Char.toLower = ['d', 'a', 'y']

/-- A document whose primary container holds a rest-day notice. -/
def restDoc : List HNode :=
  [.elem "div" [("class", "_workout-of-the-day-content-x7f")]
    [.elem "article" [] [.elem "p" [] [.text "Rest Day. Recover and hydrate today."]]]]

/-- A document on which both strategies locate content, but each candidate is
at most 20 characters long. -/
def shortDoc : List HNode :=
  [.elem "div" [("class", "_workout-of-the-day-content-x7f")]
    [.elem "article" [] [.elem "p" [] [.text "tiny"]]],
   .elem "h2" [] [.text "Workout of the Day"],
   .elem "p" [] [.text "small"]]

/-- A document on which both strategies produce accepted candidates. -/
def bothDoc : List HNode :=
  [.elem "div" [("class", "_workout-of-the-day-content-abc")]
    [.elem "article" [] [.elem "p" [] [.text "Primary content workout text here"]]],
   .elem "h2" [] [.text "Workout of the Day"],
   .elem "p" [] [.text "Fallback content workout text here"]]

/-- A `section` element carrying the primary class token, with a long nested
article: everything the primary strategy wants except the `div` tag. -/
def secDoc : List HNode :=
  [.elem "section" [("class", "_workout-of-the-day-content-x7f")]
    [.elem "article" [] [.elem "p" [] [.text "5 rounds of 20 burpees and 30 squats"]]]]

/-- `secDoc` with the container tag changed to `div` and nothing else. -/
def divDoc : List HNode :=
  [.elem "div" [("class", "_workout-of-the-day-content-x7f")]
    [.elem "article" [] [.elem "p" [] [.text "5 rounds of 20 burpees and 30 squats"]]]]

/-- A fallback-strategy document with an `hr` separating two long paragraphs
after the "Workout of the Day" heading. -/
def hrDoc : List HNode :=
  [.elem "h2" [] [.text "Workout of the Day"],
   .elem "p" [] [.text "Run 5k at an easy pace"],
   .elem "hr" [] [],
   .elem "p" [] [.text "Then 100 pushups for time"]]

example : extractWodDetails [] = ⟨none, false⟩ := by decide

example :
    extractWodDetails
      [.elem "div" [("class", "_workout-of-the-day-content-x7f")]
        [.elem "article" [] [.elem "p" [] [.text "AMRAP 20:"], .elem "p" [] [.text "10 Burpees, 20 Squats"]]]]
      = ⟨some "AMRAP 20:\n\n10 Burpees, 20 Squats", false⟩ := by decide

/-! ### Facts about trimming -/

theorem trimRight_prefix_self : ∀ l : List Char, trimRight l <+: l
  | [] => List.prefix_rfl
  | c :: cs => by
    simp only [trimRight]
    split
    · exact List.nil_prefix
    · exact List.cons_prefix_cons.mpr ⟨rfl, trimRight_prefix_self cs⟩

theorem trimRight_idem : ∀ l : List Char, trimRight (trimRight l) = trimRight l
  | [] => rfl
  | c :: cs => by
    by_cases h1 : trimRight cs = []
    · by_cases h2 : isJsWs c
      · simp [trimRight, h1, h2]
      · simp [trimRight, h1, h2]
    · simp [trimRight, h1, trimRight_idem cs]

theorem headNotWs_trimLeft (l : List Char) : headNotWs (trimLeft l) := by
  induction l with
  | nil => exact fun c h => by cases h
  | cons c cs ih =>
    cases hb : isJsWs c with
    | true => simpa [trimLeft, List.dropWhile_cons, hb] using ih
    | false =>
      intro d hd
      simp only [trimLeft, List.dropWhile_cons, hb, Bool.false_eq_true, if_false,
        List.head?_cons, Option.some.injEq] at hd
      exact hd ▸ hb

theorem headNotWs_mono {l m : List Char} (h : l <+: m) (hm : headNotWs m) :
    headNotWs l := by
  intro c hc
  rcases h with ⟨t, rfl⟩
  cases l with
  | nil => cases hc
  | cons a l =>
    simp only [List.head?_cons, Option.some.injEq] at hc
    subst hc
    exact hm _ rfl

theorem trimLeft_eq_self {l : List Char} (h : headNotWs l) : trimLeft l = l := by
  cases l with
  | nil => rfl
  | cons c cs => simp [trimLeft, List.dropWhile_cons, h c rfl]

theorem trim_idem (l : List Char) :
    trimRight (trimLeft (trimRight (trimLeft l))) = trimRight (trimLeft l) := by
  rw [trimLeft_eq_self (headNotWs_mono (trimRight_prefix_self _) (headNotWs_trimLeft l)),
    trimRight_idem]

theorem jsTrim_postProcess (s : String) : jsTrim (postProcess s) = postProcess s :=
  congrArg String.mk (trim_idem (collapseNl s.toList))

/-! ### Facts about newline collapsing -/

theorem not_nl3_infix_of_short {l : List Char} (h : l.length < 3) : ¬ nl3 <:+: l := by
  intro hin
  have := hin.length_le
  simp [nl3] at this
  omega

theorem length_emitNl (k : Nat) : (emitNl k).length ≤ 2 := by
  simp [emitNl]

theorem nl3_not_infix_cons {c : Char} (hc : c ≠ '\n') {l : List Char}
    (h : ¬ nl3 <:+: l) : ¬ nl3 <:+: c :: l := by
  intro hin
  rcases List.infix_cons_iff.mp hin with hp | hi
  · rcases List.cons_prefix_cons.mp hp with ⟨he, _⟩
    exact hc he.symm
  · exact h hi

theorem nl3_not_infix_nl_cons {c : Char} (hc : c ≠ '\n') {l : List Char}
    (h : ¬ nl3 <:+: l) : ¬ nl3 <:+: '\n' :: c :: l := by
  intro hin
  rcases List.infix_cons_iff.mp hin with hp | hi
  · rcases List.cons_prefix_cons.mp hp with ⟨_, hp2⟩
    rcases List.cons_prefix_cons.mp hp2 with ⟨he, _⟩
    exact hc he.symm
  · exact nl3_not_infix_cons hc h hi

theorem nl3_not_infix_nl_nl_cons {c : Char} (hc : c ≠ '\n') {l : List Char}
    (h : ¬ nl3 <:+: l) : ¬ nl3 <:+: '\n' :: '\n' :: c :: l := by
  intro hin
  rcases List.infix_cons_iff.mp hin with hp | hi
  · rcases List.cons_prefix_cons.mp hp with ⟨_, hp2⟩
    rcases List.cons_prefix_cons.mp hp2 with ⟨_, hp3⟩
    rcases List.cons_prefix_cons.mp hp3 with ⟨he, _⟩
    exact hc he.symm
  · exact nl3_not_infix_nl_cons hc h hi

theorem nl3_not_infix_emit_cons {c : Char} (hc : c ≠ '\n') {l : List Char}
    (h : ¬ nl3 <:+: l) (k : Nat) : ¬ nl3 <:+: emitNl k ++ c :: l := by
  have hm : min k 2 = 0 ∨ min k 2 = 1 ∨ min k 2 = 2 := by omega
  rcases hm with hm | hm | hm
  · simpa [emitNl, hm, List.replicate] using nl3_not_infix_cons hc h
  · simpa [emitNl, hm, List.replicate] using nl3_not_infix_nl_cons hc h
  · simpa [emitNl, hm, List.replicate] using nl3_not_infix_nl_nl_cons hc h

theorem collapseGo_no_nl3 (cs : List Char) : ∀ k, ¬ nl3 <:+: collapseGo k cs := by
  induction cs with
  | nil =>
    intro k
    simp only [collapseGo]
    exact not_nl3_infix_of_short (Nat.lt_of_le_of_lt (length_emitNl k) (by omega))
  | cons c cs ih =>
    intro k
    by_cases hc : c = '\n'
    · subst hc
      simp only [collapseGo, if_pos rfl]
      exact ih (k + 1)
    · simp only [collapseGo, if_neg hc]
      exact nl3_not_infix_emit_cons hc (ih 0) k

theorem collapseNl_no_nl3 (l : List Char) : ¬ nl3 <:+: collapseNl l :=
  collapseGo_no_nl3 l 0

theorem nl3_infix_of_replicate_ge {k : Nat} (h : 3 ≤ k) (l : List Char) :
    nl3 <:+: List.replicate k '\n' ++ l := by
  have hrep : List.replicate k '\n' = nl3 ++ List.replicate (k - 3) '\n' := by
    calc List.replicate k '\n' = List.replicate (3 + (k - 3)) '\n' := by
          rw [show 3 + (k - 3) = k by omega]
      _ = List.replicate 3 '\n' ++ List.replicate (k - 3) '\n' := List.replicate_add _ _ _
      _ = nl3 ++ List.replicate (k - 3) '\n' := rfl
  rw [hrep, List.append_assoc]
  exact (List.prefix_append _ _).isInfix

theorem collapseGo_id (cs : List Char) :
    ∀ k, ¬ nl3 <:+: List.replicate k '\n' ++ cs →
      collapseGo k cs = List.replicate k '\n' ++ cs := by
  induction cs with
  | nil =>
    intro k h
    have hk : k ≤ 2 := by
      by_contra hk
      exact h (nl3_infix_of_replicate_ge (by omega) [])
    simp [collapseGo, emitNl, Nat.min_eq_left hk]
  | cons c cs ih =>
    intro k h
    by_cases hc : c = '\n'
    · subst hc
      have heq : List.replicate k '\n' ++ '\n' :: cs = List.replicate (k + 1) '\n' ++ cs := by
        rw [List.replicate_succ']
        simp
      simp only [collapseGo, if_pos rfl]
      rw [heq] at h ⊢
      exact ih (k + 1) h
    · have hk : k ≤ 2 := by
        by_contra hk
        exact h (nl3_infix_of_replicate_ge (by omega) _)
      have hcs : ¬ nl3 <:+: cs := by
        intro hin
        exact h (hin.trans (((List.suffix_cons c cs).trans (List.suffix_append _ _)).isInfix))
      simp only [collapseGo, if_neg hc]
      rw [show collapseGo 0 cs = cs by simpa using ih 0 (by simpa using hcs)]
      simp [emitNl, Nat.min_eq_left hk]

theorem collapseNl_id {l : List Char} (h : ¬ nl3 <:+: l) : collapseNl l = l := by
  have := collapseGo_id l 0 (by simpa using h)
  simpa [collapseNl] using this

theorem postProcess_no_nl3 (s : String) : ¬ nl3 <:+: (postProcess s).toList := by
  intro hin
  exact collapseNl_no_nl3 s.toList
    ((hin.trans (trimRight_prefix_self _).isInfix).trans (List.dropWhile_suffix _).isInfix)

/-! ### The extraction chain -/

theorem acceptCandidate_some {o : Option String} {s : String}
    (h : acceptCandidate o = some s) : o = some s ∧ 20 < s.length := by
  cases o with
  | none => simp [acceptCandidate] at h
  | some md =>
    by_cases hl : 20 < md.length
    · simp only [acceptCandidate, if_pos hl, Option.some.injEq] at h
      subst h
      exact ⟨rfl, hl⟩
    · simp [acceptCandidate, hl] at h

theorem chooseWodText_some {doc : List HNode} {s : String}
    (h : chooseWodText doc = some s) :
    primaryResult doc = some s ∨ fallbackResult doc = some s := by
  unfold chooseWodText at h
  cases hp : primaryResult doc with
  | some md => rw [hp] at h; exact Or.inl h
  | none => rw [hp] at h; exact Or.inr h

theorem extract_wodText_some {doc : List HNode} {s : String}
    (h : (extractWodDetails doc).wodText = some s) :
    chooseWodText doc = some s ∧ (extractWodDetails doc).isRestDay = hasRestDay s.toList := by
  unfold extractWodDetails at h ⊢
  cases hc : chooseWodText doc with
  | none => rw [hc] at h; exact Option.noConfusion h
  | some md =>
    rw [hc] at h
    have h2 : md = s := Option.some.inj h
    subst h2
    exact ⟨rfl, rfl⟩

theorem primaryCandidate_postProcess {doc : List HNode} {s : String}
    (h : primaryCandidate doc = some s) : ∃ t, s = postProcess t := by
  unfold primaryCandidate at h
  split at h
  · cases h
  · split at h
    · cases h
    · split at h
      · cases h
      · exact ⟨_, (Option.some.inj h).symm⟩

theorem fallbackCandidate_postProcess {doc : List HNode} {s : String}
    (h : fallbackCandidate doc = some s) : ∃ t, s = postProcess t := by
  unfold fallbackCandidate at h
  split at h
  · cases h
  · split at h
    · cases h
    · exact ⟨_, (Option.some.inj h).symm⟩

theorem extract_some_props {doc : List HNode} {s : String}
    (h : (extractWodDetails doc).wodText = some s) :
    20 < s.length ∧ ∃ t, s = postProcess t := by
  obtain ⟨hc, -⟩ := extract_wodText_some h
  rcases chooseWodText_some hc with hp | hf
  · unfold primaryResult at hp
    obtain ⟨hcand, hlen⟩ := acceptCandidate_some hp
    exact ⟨hlen, primaryCandidate_postProcess hcand⟩
  · unfold fallbackResult at hf
    obtain ⟨hcand, hlen⟩ := acceptCandidate_some hf
    exact ⟨hlen, fallbackCandidate_postProcess hcand⟩

/-! ### The rest-day pattern -/

theorem matchRestDayAt_iff (l : List Char) :
    matchRestDayAt l = true ↔
      ∃ four w three post,
        l = four ++ w :: three ++ post ∧
        four.map Char.toLower = ['r', 'e', 's', 't'] ∧
        isJsWs w = true ∧
        three.map Char.toLower = ['d', 'a', 'y'] := by
  constructor
  · intro h
    rcases l with _ | ⟨c0, _ | ⟨c1, _ | ⟨c2, _ | ⟨c3, _ | ⟨w, _ | ⟨c4, _ | ⟨c5, _ | ⟨c6, rest⟩⟩⟩⟩⟩⟩⟩⟩ <;>
      simp only [matchRestDayAt, Bool.and_eq_true, decide_eq_true_eq] at h
    all_goals try exact absurd h Bool.false_ne_true
    obtain ⟨⟨⟨⟨⟨⟨⟨h0, h1⟩, h2⟩, h3⟩, hw⟩, h4⟩, h5⟩, h6⟩ := h
    exact ⟨[c0, c1, c2, c3], w, [c4, c5, c6], rest, rfl,
      by simp [h0, h1, h2, h3], hw, by simp [h4, h5, h6]⟩
  · rintro ⟨four, w, three, post, heq, hfour, hw, hthree⟩
    rcases four with _ | ⟨a, _ | ⟨b, _ | ⟨c, _ | ⟨d, ftl⟩⟩⟩⟩ <;> simp at hfour
    obtain ⟨ha, hb, hc, hd, hftl⟩ := hfour
    subst hftl
    rcases three with _ | ⟨x, _ | ⟨y, _ | ⟨z, ttl⟩⟩⟩ <;> simp at hthree
    obtain ⟨hx, hy, hz, httl⟩ := hthree
    subst httl
    subst heq
    simp [matchRestDayAt, ha, hb, hc, hd, hw, hx, hy, hz]

theorem hasRestDay_iff (l : List Char) : hasRestDay l = true ↔ RestDayMatch l := by
  induction l with
  | nil =>
    constructor
    · intro h; cases h
    · rintro ⟨pre, four, w, three, post, heq, hfour, hw, hthree⟩
      rcases four with _ | ⟨a, four⟩
      · simp at hfour
      · have := congrArg List.length heq
        simp [List.length_append] at this
        exact absurd this (by omega)
  | cons c cs ih =>
    constructor
    · intro h
      have h2 : matchRestDayAt (c :: cs) = true ∨ hasRestDay cs = true := by
        simpa [hasRestDay] using h
      rcases h2 with hm | ht
      · obtain ⟨four, w, three, post, heq, hfour, hw, hthree⟩ := (matchRestDayAt_iff _).mp hm
        exact ⟨[], four, w, three, post, by simpa using heq, hfour, hw, hthree⟩
      · obtain ⟨pre, four, w, three, post, heq, hfour, hw, hthree⟩ := ih.mp ht
        exact ⟨c :: pre, four, w, three, post, by simp [heq], hfour, hw, hthree⟩
    · rintro ⟨pre, four, w, three, post, heq, hfour, hw, hthree⟩
      rcases pre with _ | ⟨p, pre⟩
      · have hm : matchRestDayAt (c :: cs) = true :=
          (matchRestDayAt_iff _).mpr ⟨four, w, three, post, by simpa using heq, hfour, hw, hthree⟩
        simp [hasRestDay, hm]
      · simp only [List.cons_append, List.cons.injEq] at heq
        obtain ⟨hc, hcs⟩ := heq
        have ht : hasRestDay cs = true := ih.mpr ⟨pre, four, w, three, post, hcs, hfour, hw, hthree⟩
        simp [hasRestDay, ht]

/-! ### Selector evaluation as a filter of the pre-order traversal -/

mutual

theorem collectNode_eq_filter (p : HNode → Bool) :
    (n : HNode) → collectNode p n = (preorderNode n).filter p
  | .text s => by
    cases hp : p (.text s) <;>
      simp [collectNode, preorderNode, List.filter_cons, hp]
  | .elem t a c => by
    have ih := collectNodes_eq_filter p c
    cases hp : p (.elem t a c) <;>
      simp [collectNode, preorderNode, List.filter_cons, hp, ih]

theorem collectNodes_eq_filter (p : HNode → Bool) :
    (l : List HNode) → collectNodes p l = (preorderNodes l).filter p
  | [] => rfl
  | n :: ns => by
    simp [collectNodes, preorderNodes, List.filter_append,
      collectNode_eq_filter p n, collectNodes_eq_filter p ns]

end

/-! ### The claims -/

/-- C1: for every input document, if `extractWodDetails` returns a null
`wodText` then `isRestDay` is `false`. -/
theorem wodText_none_implies_not_restDay (doc : List HNode)
    (h : (extractWodDetails doc).wodText = none) :
    (extractWodDetails doc).isRestDay = false := by
  unfold extractWodDetails at h ⊢
  cases hc : chooseWodText doc with
  | none => rfl
  | some md => rw [hc] at h; exact Option.noConfusion h

/-- Witness for C1 at the empty document. -/
theorem wodText_none_implies_not_restDay_witness :
    (extractWodDetails []).isRestDay = false :=
  wodText_none_implies_not_restDay [] (by decide)

/-- C2: whenever extraction yields text, `isRestDay` holds exactly when the
text matches `/rest\sday/i`: the letters of "rest", exactly one whitespace
character, the letters of "day", case-insensitively, anywhere in the text;
"Rest Day" and "REST DAY" match, "rest  day" (two spaces) does not. -/
theorem restDay_detection :
    (∀ (doc : List HNode) (s : String), (extractWodDetails doc).wodText = some s →
      ((extractWodDetails doc).isRestDay = true ↔ RestDayMatch s.toList))
    ∧ hasRestDay "Rest Day".toList = true
    ∧ hasRestDay "REST DAY".toList = true
    ∧ hasRestDay "rest  day".toList = false := by
  refine ⟨?_, by decide, by decide, by decide⟩
  intro doc s h
  obtain ⟨-, hr⟩ := extract_wodText_some h
  rw [hr]
  exact hasRestDay_iff s.toList

/-- Witness for C2: the rest-day document extracts text, and the
characterization applies to that text. -/
theorem restDay_detection_witness :
    (extractWodDetails restDoc).isRestDay = true ↔
      RestDayMatch "Rest Day. Recover and hydrate today.".toList :=
  restDay_detection.1 restDoc "Rest Day. Recover and hydrate today." (by decide)

/-- C3: a candidate is accepted only when its post-processed text is strictly
longer than 20 characters, and when both strategies' candidates are at most
20 characters the extractor returns the null record. -/
theorem length_threshold :
    (∀ (doc : List HNode) (s : String),
      (extractWodDetails doc).wodText = some s → 20 < s.length)
    ∧ (∀ doc : List HNode,
        ((primaryCandidate doc).all fun s => decide (s.length ≤ 20)) = true →
        ((fallbackCandidate doc).all fun s => decide (s.length ≤ 20)) = true →
        extractWodDetails doc = ⟨none, false⟩) := by
  constructor
  · intro doc s h
    exact (extract_some_props h).1
  · intro doc hp hf
    have hpr : primaryResult doc = none := by
      unfold primaryResult
      cases hc : primaryCandidate doc with
      | none => rfl
      | some s =>
        rw [hc] at hp
        simp only [Option.all, decide_eq_true_eq] at hp
        simp only [acceptCandidate]
        rw [if_neg (Nat.not_lt.mpr hp)]
    have hfr : fallbackResult doc = none := by
      unfold fallbackResult
      cases hc : fallbackCandidate doc with
      | none => rfl
      | some s =>
        rw [hc] at hf
        simp only [Option.all, decide_eq_true_eq] at hf
        simp only [acceptCandidate]
        rw [if_neg (Nat.not_lt.mpr hf)]
    unfold extractWodDetails chooseWodText
    rw [hpr, hfr]

/-- Witness for C3 at a document whose two candidates are 4 and 5 characters
long. -/
theorem length_threshold_witness : extractWodDetails shortDoc = ⟨none, false⟩ :=
  length_threshold.2 shortDoc (by decide) (by decide)

/-- C4: when the primary strategy accepts its candidate, the extractor
returns the primary content even when the fallback strategy would also have
accepted. -/
theorem strategy_priority (doc : List HNode) (s t : String)
    (hp : primaryResult doc = some s) (_ht : fallbackResult doc = some t) :
    extractWodDetails doc = ⟨some s, hasRestDay s.toList⟩ := by
  unfold extractWodDetails chooseWodText
  rw [hp]

/-- Witness for C4: both strategies accept on `bothDoc`; the primary text is
returned. -/
theorem strategy_priority_witness :
    extractWodDetails bothDoc = ⟨some "Primary content workout text here",
      hasRestDay "Primary content workout text here".toList⟩ :=
  strategy_priority bothDoc "Primary content workout text here"
    "Fallback content workout text here" (by decide) (by decide)

/-- C5: the converter implements exactly the documented recursive rules
(text literal; `p` with two trailing newlines; `br` one newline;
`strong`/`b` and `em`/`i` emphasis wrapping; `a` links with absent `href`
as the empty string; any other tag transparent; children in document order),
post-processing collapses runs of three or more newlines to exactly two and
trims, an empty fragment converts to the empty string, and the reference
example converts as stated. -/
theorem converter_rules :
    (∀ s, convertNode (.text s) = s)
    ∧ (∀ a c, convertNode (.elem "p" a c) = convertNodes c ++ "\n\n")
    ∧ (∀ a c, convertNode (.elem "br" a c) = "\n")
    ∧ (∀ a c, convertNode (.elem "strong" a c) = "**" ++ convertNodes c ++ "**")
    ∧ (∀ a c, convertNode (.elem "b" a c) = "**" ++ convertNodes c ++ "**")
    ∧ (∀ a c, convertNode (.elem "em" a c) = "*" ++ convertNodes c ++ "*")
    ∧ (∀ a c, convertNode (.elem "i" a c) = "*" ++ convertNodes c ++ "*")
    ∧ (∀ a c, convertNode (.elem "a" a c)
        = "[" ++ convertNodes c ++ "](" ++ (getAttr a "href").getD "" ++ ")")
    ∧ (∀ tag a c, lowerStr tag ≠ "p" → lowerStr tag ≠ "br" → lowerStr tag ≠ "strong" →
        lowerStr tag ≠ "b" → lowerStr tag ≠ "em" → lowerStr tag ≠ "i" → lowerStr tag ≠ "a" →
        convertNode (.elem tag a c) = convertNodes c)
    ∧ (∀ n ns, convertNodes (n :: ns) = convertNode n ++ convertNodes ns)
    ∧ convertNodes [] = ""
    ∧ (∀ l, ¬ nl3 <:+: collapseNl l)
    ∧ (∀ l, ¬ nl3 <:+: l → collapseNl l = l)
    ∧ collapseNl "a\n\n\n\n\nb".toList = "a\n\nb".toList
    ∧ snippetToMarkdown [] = ""
    ∧ snippetToMarkdown
        [.elem "p" [] [.text "Hello ", .elem "strong" [] [.text "world"],
          .elem "br" [] [], .text "Next line"]] = "Hello **world**\nNext line" := by
  refine ⟨fun s => rfl, fun a c => rfl, fun a c => rfl, fun a c => rfl, fun a c => rfl,
    fun a c => rfl, fun a c => rfl, fun a c => rfl, ?_, fun n ns => rfl, rfl,
    collapseNl_no_nl3, fun l h => collapseNl_id h, by decide, by decide, by decide⟩
  intro tag a c h1 h2 h3 h4 h5 h6 h7
  simp only [convertNode]
  rw [if_neg h1, if_neg h2, if_neg (not_or.mpr ⟨h3, h4⟩), if_neg (not_or.mpr ⟨h5, h6⟩),
    if_neg h7]

/-- Witness for C5: the default-tag rule applied to a `div` element, and the
collapse identity applied to a newline-free list. -/
theorem converter_rules_witness :
    convertNode (.elem "div" [] [.text "abc"]) = convertNodes [.text "abc"]
    ∧ collapseNl "ab".toList = "ab".toList :=
  ⟨converter_rules.2.2.2.2.2.2.2.2.1 "div" [] [.text "abc"] (by decide) (by decide)
      (by decide) (by decide) (by decide) (by decide) (by decide),
    converter_rules.2.2.2.2.2.2.2.2.2.2.2.2.1 "ab".toList (by decide)⟩

/-- C6 counterexample: the primary selector requires the `div` tag.  On
`secDoc`, a `section` element carrying the class token with a long nested
article, nothing is extracted, while the identical document with a `div`
container extracts the article text. -/
theorem primary_selector_div_only :
    extractWodDetails secDoc = ⟨none, false⟩
    ∧ extractWodDetails divDoc = ⟨some "5 rounds of 20 burpees and 30 squats", false⟩ :=
  ⟨by decide, by decide⟩

/-- C6 amended: the primary selector considers only `div` elements whose raw
class attribute value starts with the token; the selected set is the
document-order (pre-order) filter of the tree; and the article search covers
the descendants of every selected div, concatenated in order. -/
theorem primary_selector_amended :
    (∀ doc : List HNode,
      collectNodes isPrimaryDiv doc = (preorderNodes doc).filter isPrimaryDiv)
    ∧ (∀ tag attrs children, isPrimaryDiv (.elem tag attrs children) = true →
        lowerStr tag = "div" ∧
          ∃ cls, getAttr attrs "class" = some cls ∧
            startsWithL cls.toList wodClassToken.toList = true)
    ∧ (∀ d ds, articlesUnderDivs (d :: ds)
        = descendantsMatching isArticleElem d ++ articlesUnderDivs ds) := by
  refine ⟨collectNodes_eq_filter isPrimaryDiv, ?_, fun d ds => rfl⟩
  intro tag attrs children h
  simp only [isPrimaryDiv, Bool.and_eq_true, decide_eq_true_eq] at h
  obtain ⟨hdiv, hcls⟩ := h
  refine ⟨hdiv, ?_⟩
  cases hattr : getAttr attrs "class" with
  | none => rw [hattr] at hcls; exact absurd hcls Bool.false_ne_true
  | some cls => rw [hattr] at hcls; exact ⟨cls, rfl, hcls⟩

/-- Witness for C6 amended, at a concrete matching div element. -/
theorem primary_selector_amended_witness :
    lowerStr "div" = "div" ∧
      ∃ cls, getAttr [("class", "_workout-of-the-day-content-x7f")] "class" = some cls ∧
        startsWithL cls.toList wodClassToken.toList = true :=
  primary_selector_amended.2.1 "div" [("class", "_workout-of-the-day-content-x7f")] []
    (by decide)

/-- C7 counterexample: an `hr` element also stops the fallback's sibling
collection, so on `hrDoc` the paragraph after the `hr` is not part of the
extracted text. -/
theorem fallback_stop_hr :
    (extractWodDetails hrDoc).wodText = some "Run 5k at an easy pace"
    ∧ (extractWodDetails hrDoc).wodText
        ≠ some "Run 5k at an easy pace\n\nThen 100 pushups for time" :=
  ⟨by decide, by decide⟩

/-- C7 amended: the collected fragment is exactly the element siblings
following the heading up to the first element matching the stop selector,
which besides the level 1-3 headings and the comments selectors also
includes `hr`; text-node siblings are skipped, not collected. -/
theorem fallback_collection_amended :
    (∀ sibs : List HNode, nextUntilStop sibs
        = (sibs.takeWhile fun n => !(isElementNode n && isFallbackStop n)).filter isElementNode)
    ∧ (∀ tag attrs children, isFallbackStop (.elem tag attrs children) = true ↔
        (lowerStr tag = "h1" ∨ lowerStr tag = "h2" ∨ lowerStr tag = "h3" ∨ lowerStr tag = "hr"
         ∨ getAttr attrs "id" = some "comments"
         ∨ (lowerStr tag = "section" ∧ hasClassTok attrs "comments" = true)
         ∨ (lowerStr tag = "div" ∧ hasClassTok attrs "fyre" = true)
         ∨ (lowerStr tag = "div" ∧ hasClassTok attrs "comments-area" = true)
         ∨ hasClassTok attrs "comments-section" = true
         ∨ hasClassTok attrs "post-comments" = true)) := by
  constructor
  · intro sibs
    induction sibs with
    | nil => rfl
    | cons n ns ih =>
      cases n with
      | text s => simp [nextUntilStop, List.takeWhile_cons, isElementNode, ih]
      | elem t a c =>
        cases hs : isFallbackStop (.elem t a c) with
        | true => simp [nextUntilStop, List.takeWhile_cons, isElementNode, hs]
        | false => simp [nextUntilStop, List.takeWhile_cons, isElementNode, hs, ih]
  · intro tag attrs children
    simp only [isFallbackStop, Bool.or_eq_true, Bool.and_eq_true, decide_eq_true_eq]
    tauto

/-- C8: the extractor is a total function of the parsed document: every input
yields a record, and an input on which no content is located yields exactly
the null record with `isRestDay = false`. -/
theorem extract_total (doc : List HNode) :
    extractWodDetails doc = ⟨none, false⟩ ∨ ∃ s, (extractWodDetails doc).wodText = some s := by
  unfold extractWodDetails
  cases hc : chooseWodText doc with
  | none => exact Or.inl rfl
  | some md => exact Or.inr ⟨md, rfl⟩

/-- C9: the extractor is deterministic: identical inputs yield identical
output records. -/
theorem extract_deterministic (d1 d2 : List HNode) (h : d1 = d2) :
    extractWodDetails d1 = extractWodDetails d2 := by rw [h]

/-- Witness for C9 at `restDoc`. -/
theorem extract_deterministic_witness :
    extractWodDetails restDoc = extractWodDetails restDoc :=
  extract_deterministic restDoc restDoc rfl

/-- C10: whenever the extractor returns text, that text is strictly longer
than 20 characters, equal to its own trimmed form, free of runs of three or
more newlines, and in particular nonempty. -/
theorem extract_text_normalized (doc : List HNode) (s : String)
    (h : (extractWodDetails doc).wodText = some s) :
    20 < s.length ∧ jsTrim s = s ∧ ¬ nl3 <:+: s.toList ∧ s ≠ "" := by
  obtain ⟨hlen, t, ht⟩ := extract_some_props h
  subst ht
  refine ⟨hlen, jsTrim_postProcess t, postProcess_no_nl3 t, ?_⟩
  intro he
  rw [he] at hlen
  exact absurd hlen (by decide)

/-- Witness for C10 at `divDoc`. -/
theorem extract_text_normalized_witness :
    20 < "5 rounds of 20 burpees and 30 squats".length
    ∧ jsTrim "5 rounds of 20 burpees and 30 squats" = "5 rounds of 20 burpees and 30 squats"
    ∧ ¬ nl3 <:+: "5 rounds of 20 burpees and 30 squats".toList
    ∧ "5 rounds of 20 burpees and 30 squats" ≠ "" :=
  extract_text_normalized divDoc "5 rounds of 20 burpees and 30 squats" (by decide)
